import Mathlib

/-!
# Verification of the hashline content-anchored editing core

Shallow embedding of `src/extensions/hashline.ts`: content-hashed line tags
for read output (`lineHash`, `tagLines`), anchor resolution (`resolveHash`),
the pre-dispatch resolution/validation phase of the `change_file` tool
(`changeFileDispatch`), and the unified-diff windowing engine
(`formatUnifiedDiff`).

Modelling conventions:
* A JavaScript string is modelled as a `List Nat` of its UTF-16 code units
  (`charCodeAt` values).  For the ASCII literals used in concrete tests the
  code units coincide with Unicode code points, so `cu` below converts a
  Lean string literal to this representation.
* 32-bit JavaScript arithmetic (`Math.imul`, `^`, `>>> 0`) is modelled on
  `Nat` with explicit reduction `% 2 ^ 32`.
* `throw new Error(...)` is modelled with `Except ChangeErr`; the inductive
  `ChangeErr` classifies the two throw sites of the resolution path
  (the "not found … re-read" message and the "resolves to line … before"
  message) as `staleAnchor` and `invalidRange`, carrying the data that the
  messages interpolate.
* The impure `change_file` executor call (`pi.exec`) is modelled by the
  pure function `changeFileDispatch` returning the exact argument vector
  (`Dispatch`) that the source passes to the external mutation executor;
  an `Except.error` result means the call throws before any `pi.exec`
  dispatch, leaving the file untouched.
-/

/-- Code units of a Lean string literal (ASCII-only literals are used, where
UTF-16 code units and code points agree). -/
def cu (s : String) : List Nat := s.data.map Char.toNat

/-- The base-62 alphabet `B62 = "0123...XYZabc...xyz"` of the source, as the
map from a digit value `0 ≤ n < 62` to the code unit of `B62[n]`. -/
def B62 (n : Nat) : Nat :=
  if n < 10 then 48 + n
  else if n < 36 then 65 + (n - 10)
  else 97 + (n - 36)

/-- The FNV-1a 32-bit loop of `lineHash`: `h ^= charCode; h = Math.imul(h, 0x01000193)`
starting from the offset basis `0x811c9dc5`, with 32-bit wraparound made explicit. -/
def fnv1a (text : List Nat) : Nat :=
  text.foldl (fun h c => (h.xor c) * 0x01000193 % 2 ^ 32) 0x811c9dc5

/-- Models `lineHash(text)`: FNV-1a 32-bit reduced `% 3844`, split into two base-62
digits (`B62[n / 62]` then `B62[n % 62]`), returned as the 2-code-unit string. -/
def lineHash (text : List Nat) : List Nat :=
  let n := fnv1a text % 3844
  [B62 (n / 62), B62 (n % 62)]

/-- The reserved blank marker `"  |"` rendered for empty lines. -/
def blankMarker : List Nat := [32, 32, 124]

/-- Models `tagLines(lines)`: empty lines get `"  |"`, all non-empty lines get
`` `${lineHash(line)}|${line}` ``. -/
def tagLines (lines : List (List Nat)) : List (List Nat) :=
  lines.map (fun line => if line.length = 0 then blankMarker else lineHash line ++ 124 :: line)

/-- The predicate of the `resolveHash` scan loop:
`fileLines[i].length > 0 && lineHash(fileLines[i]) === hash`. -/
def hashMatch (hash line : List Nat) : Prop := 0 < line.length ∧ lineHash line = hash

instance (hash line : List Nat) : Decidable (hashMatch hash line) := by
  unfold hashMatch; infer_instance

/-- The scan loop of `resolveHash`: starting at 0-based index `i` over the
remaining lines `ls`, returns `(firstMatch, totalMatches)` where `firstMatch`
is the 1-indexed line of the first match (`i + 1` at the head) and
`totalMatches` counts every match in the scanned region. -/
def scanHash (hash : List Nat) : List (List Nat) → Nat → Option Nat × Nat
  | [], _ => (none, 0)
  | l :: ls, i =>
    let r := scanHash hash ls (i + 1)
    if hashMatch hash l then (some (i + 1), r.2 + 1) else r

/-- Result record of `resolveHash`: `{ line, ambiguous }`. -/
structure ResolveResult where
  line : Nat
  ambiguous : Bool

deriving DecidableEq, Repr

/-- Classified throw sites of the resolution path.  `staleAnchor hash offset`
models the `Hash "..." not found in file ... re-read before editing` error of
`resolveHash`; `invalidRange stop start` models the
`hash_stop ... resolves to line (stop), which is before hash_start ... at line (start)`
error of `change_file`'s execute. -/
inductive ChangeErr where
  | staleAnchor : List Nat → Option Nat → ChangeErr
  | invalidRange : Nat → Nat → ChangeErr

deriving DecidableEq, Repr

/-- Models `resolveHash(fileLines, hash, offset?)`: scans from
`start = offset != null ? offset - 1 : 0` (0-based), fails with the
stale-anchor error when no line at or after `start` matches, otherwise
returns the first match with
`ambiguous = offset == null && totalMatches > 1`.
(Faithful for `offset ≥ 1` or absent; the source would crash on
`offset ≤ 0`, which the theorems below exclude by hypothesis.) -/
def resolveHash (fileLines : List (List Nat)) (hash : List Nat) (offset : Option Nat) :
    Except ChangeErr ResolveResult :=
  let start := match offset with
    | some o => o - 1
    | none => 0
  let r := scanHash hash (fileLines.drop start) start
  match r.1 with
  | none => .error (.staleAnchor hash offset)
  | some line => .ok ⟨line, offset.isNone && decide (1 < r.2)⟩

/-- Models `content.split("\n")` on code units. -/
def splitNL : List Nat → List (List Nat)
  | [] => [[]]
  | c :: rest =>
    if c = 10 then [] :: splitNL rest
    else
      match splitNL rest with
      | [] => [[c]]
      | p :: ps => (c :: p) :: ps

/-- Models `parts.join("\n")` on code units. -/
def joinNL : List (List Nat) → List Nat
  | [] => []
  | [p] => p
  | p :: ps => p ++ 10 :: joinNL ps

deriving instance DecidableEq for Except

/-- Predicate `matchesAt fl hash j`: the 1-indexed line `j` of the snapshot is a
candidate for the anchor (in bounds, non-empty, equal hash). -/
def matchesAt (fileLines : List (List Nat)) (hash : List Nat) (j : Nat) : Prop :=
  1 ≤ j ∧ j ≤ fileLines.length ∧ hashMatch hash (fileLines.getD (j - 1) [])

instance (fileLines : List (List Nat)) (hash : List Nat) (j : Nat) :
    Decidable (matchesAt fileLines hash j) := by
  unfold matchesAt; infer_instance

/-- Number of candidate lines for an anchor in the whole snapshot. -/
def countMatches (fileLines : List (List Nat)) (hash : List Nat) : Nat :=
  fileLines.countP (fun l => decide (hashMatch hash l))

/-- Edit mode selected by `change_file`'s execute:
`!content ? "delete" : lineStop != null ? "replace" : "insert"`. -/
inductive EditMode where
  | delete
  | insert
  | replace

deriving DecidableEq, Repr

/-- The argument vector `(mode, normalizedContent, lineStart, stop)` that
execute passes to the external mutation executor
(`pi.exec("bash", ["-c", EDIT_SCRIPT, "--", filePath, mode, normalizedContent, String(lineStart), stop], ...)`). -/
structure Dispatch where
  mode : EditMode
  lineStart : Nat
  stop : Nat
  content : List Nat

deriving DecidableEq, Repr

/-- JavaScript truthiness of the optional `content` string (`undefined` and
`""` are falsy). -/
def contentTruthy : Option (List Nat) → Bool
  | none => false
  | some c => decide (c ≠ [])

/-- Models `content && !content.endsWith("\n") ? content + "\n" : (content ?? "")`. -/
def normalizeContent : Option (List Nat) → List Nat
  | some c => if c ≠ [] ∧ c.getLast? ≠ some 10 then c ++ [10] else c
  | none => []

/-- The insert-mode trailing-duplicate drop of execute: split the content on
newlines; if the hash of its last line equals the hash of the line being
inserted before (`fileLines[lineStart - 1]`), pop that last line and re-join. -/
def dropDupTail (fileLines : List (List Nat)) (lineStart : Nat) (c : List Nat) : List Nat :=
  let contentLines := splitNL c
  if 0 < contentLines.length ∧
      lineHash (contentLines.getLastD []) = lineHash (fileLines.getD (lineStart - 1) []) then
    joinNL contentLines.dropLast
  else c

/-- The resolution / validation / dispatch-preparation phase of `change_file`'s
execute for edit requests (`hash_start` present): resolve the start anchor
(with the request's offset), resolve the stop anchor when present (searching
from `offset ?? lineStart`), reject when the resolved stop precedes the
resolved start, then assemble the mode, the insert-mode trailing-duplicate
drop and the newline normalization into the executor's argument vector.
An `Except.error` models the throw happening before `pi.exec` is reached. -/
def changeFileDispatch (fileLines : List (List Nat)) (hashStart : List Nat)
    (hashStop : Option (List Nat)) (offset : Option Nat) (content : Option (List Nat)) :
    Except ChangeErr Dispatch :=
  match resolveHash fileLines hashStart offset with
  | .error e => .error e
  | .ok startResult =>
    let lineStart := startResult.line
    let stopResolved : Except ChangeErr (Option Nat) :=
      match hashStop with
      | none => .ok none
      | some hs =>
        match resolveHash fileLines hs (some (offset.getD lineStart)) with
        | .error e => .error e
        | .ok stopResult => .ok (some stopResult.line)
    match stopResolved with
    | .error e => .error e
    | .ok lineStop =>
      match lineStop with
      | some l =>
        if l < lineStart then .error (.invalidRange l lineStart)
        else
          let mode := if contentTruthy content = false then EditMode.delete
            else EditMode.replace
          .ok ⟨mode, lineStart, l, normalizeContent content⟩
      | none =>
        let mode := if contentTruthy content = false then EditMode.delete
          else EditMode.insert
        let content2 :=
          if mode = EditMode.insert ∧ contentTruthy content then
            content.map (dropDupTail fileLines lineStart)
          else content
        .ok ⟨mode, lineStart, lineStart, normalizeContent content2⟩

/-- Row classification of the diff parser: removed (`"r"`), added (`"a"`),
context (`"c"`). -/
inductive EType where
  | r
  | a
  | c

deriving DecidableEq, Repr

/-- One parsed diff row: `{ type, line, text }`. -/
structure DiffEntry where
  t : EType
  line : Nat
  text : List Nat

deriving DecidableEq, Repr

/-- Decimal digit code units of `n` (the code units of JavaScript
`String(n)`), via an explicit fuel argument so the definition is structural
and evaluates; `decDigits` always supplies enough fuel. -/
def decDigitsAux : Nat → Nat → List Nat
  | 0, _ => []
  | fuel + 1, n => if n < 10 then [48 + n] else decDigitsAux fuel (n / 10) ++ [48 + n % 10]

/-- Digits of `String(n)` as code units. -/
def decDigits (n : Nat) : List Nat := decDigitsAux (n + 1) n

/-- Models `String(n).padStart(w)`. -/
def padLeft (w : Nat) (s : List Nat) : List Nat := List.replicate (w - s.length) 32 ++ s

/-- A digit sequence after a `" +"`, searching for the LAST occurrence (the
greedy `.*` of the header regex) and returning its parsed value. -/
def lastPlusNum : List Nat → Option Nat
  | [] => none
  | c :: rest =>
    match lastPlusNum rest with
    | some n => some n
    | none =>
      match c, rest with
      | 32, 43 :: ds =>
        let digits := ds.takeWhile fun ch => decide (48 ≤ ch ∧ ch ≤ 57)
        if digits = [] then none
        else some (digits.foldl (fun acc ch => acc * 10 + (ch - 48)) 0)
      | _, _ => none

/-- The header regex `/@@ -(\d+).* \+(\d+)/` at the start of `l`:
`"@@ -"` followed by at least one digit, with a `" +<digits>"` somewhere
after (the greedy `.*` selects the last such occurrence for the capture). -/
def headerAt (l : List Nat) : Option (Nat × Nat) :=
  match l with
  | 64 :: 64 :: 32 :: 45 :: ds =>
    let digits := ds.takeWhile fun ch => decide (48 ≤ ch ∧ ch ≤ 57)
    if digits = [] then none
    else
      match lastPlusNum (ds.drop digits.length) with
      | some n2 => some (digits.foldl (fun acc ch => acc * 10 + (ch - 48)) 0, n2)
      | none => none
  | _ => none

/-- Leftmost match of the header regex in the line (the regex is unanchored;
the caller only applies it to lines that start with `"@@"`). -/
def parseHunkHeader : List Nat → Option (Nat × Nat)
  | [] => none
  | c :: rest =>
    match headerAt (c :: rest) with
    | some v => some v
    | none => parseHunkHeader rest

/-- The parse loop of `formatUnifiedDiff`: maintains the old-line counter
`ol`, the new-line counter `nl` and the `inHunk` flag; `@@` lines reset the
counters via the header regex (and are never emitted), `---`/`+++` lines and
lines outside a hunk are skipped, `-` rows are removed rows numbered by `ol`,
`+` rows are added rows numbered by `nl`, everything else is a context row
advancing both counters. -/
def parseUDiff : List (List Nat) → Nat → Nat → Bool → List DiffEntry
  | [], _, _, _ => []
  | raw :: rest, ol, nl, inHunk =>
    if raw.take 2 = [64, 64] then
      match parseHunkHeader raw with
      | some (a, b) => parseUDiff rest a b true
      | none => parseUDiff rest ol nl inHunk
    else if raw.take 3 = [45, 45, 45] ∨ raw.take 3 = [43, 43, 43] ∨ inHunk = false then
      parseUDiff rest ol nl inHunk
    else
      match raw with
      | 45 :: txt => ⟨EType.r, ol, txt⟩ :: parseUDiff rest (ol + 1) nl inHunk
      | 43 :: txt => ⟨EType.a, nl, txt⟩ :: parseUDiff rest ol (nl + 1) inHunk
      | _ => ⟨EType.c, ol, raw.drop 1⟩ :: parseUDiff rest (ol + 1) (nl + 1) inHunk

/-- Models `let mx = 0; for e of entries: if (e.line > mx) mx = e.line`. -/
def maxLine (entries : List DiffEntry) : Nat :=
  entries.foldl (fun mx e => max mx e.line) 0

/-- Models `const w = Math.max(3, String(mx).length)`. -/
def widthOf (entries : List DiffEntry) : Nat := max 3 (decDigits (maxLine entries)).length

/-- The context radius `CONTEXT = 4`. -/
def CONTEXT : Nat := 4

/-- The `near` index set: `j` is within `CONTEXT` entry positions of some
removed/added entry (the source materializes exactly these indices, clamped
to the entry range, into a `Set`; membership is only ever queried for
`j < entries.length`, where the clamping is invisible). -/
def nearB (entries : List DiffEntry) (j : Nat) : Bool :=
  entries.enum.any fun p =>
    decide (p.2.t ≠ EType.c) && decide (j ≤ p.1 + CONTEXT) && decide (p.1 ≤ j + CONTEXT)

/-- Models the ellipsis marker row `` ` ${" ".repeat(w)} ...` ``. -/
def markerRow (w : Nat) : List Nat := 32 :: (List.replicate w 32 ++ 32 :: [46, 46, 46])

/-- The code unit prefixed to a rendered row: `-`, `+` or space. -/
def typeChar : EType → Nat
  | EType.r => 45
  | EType.a => 43
  | EType.c => 32

/-- Models `` `-${pad(e.line)} ${e.text}` `` (and the `+`/space variants). -/
def renderRow (w : Nat) (e : DiffEntry) : List Nat :=
  typeChar e.t :: (padLeft w (decDigits e.line) ++ 32 :: e.text)

/-- Models `last >= 0 && i - last > 1` — an omitted run separates the previously
emitted row from the current one. -/
def gapB (last : Option Nat) (i : Nat) : Bool :=
  match last with
  | some l => decide (1 < i - l)
  | none => false

/-- Models `firstChanged ??= e.line` on removed/added rows. -/
def fcUpd (e : DiffEntry) (fc : Option Nat) : Option Nat :=
  if e.t ≠ EType.c ∧ fc = none then some e.line else fc

/-- The emit loop of `formatUnifiedDiff`: walks the entries with index `i`,
the index `last` of the previously emitted entry (`none` models the initial
`-1`) and the accumulated `firstChanged`; skips far-away context rows, pushes
one ellipsis marker when the previous emitted index is further than 1 behind,
records the first removed/added line, and renders every kept row. -/
def emitLoop (w : Nat) (near : Nat → Bool) :
    List DiffEntry → Nat → Option Nat → Option Nat → List (List Nat) × Option Nat
  | [], _, _, fc => ([], fc)
  | e :: es, i, last, fc =>
    if e.t = EType.c ∧ near i = false then emitLoop w near es (i + 1) last fc
    else
      let rest := emitLoop w near es (i + 1) (some i) (fcUpd e fc)
      ((if gapB last i then [markerRow w] else []) ++ renderRow w e :: rest.1, rest.2)

/-- Result of `formatUnifiedDiff`: the report rows (joined with `"\n"` into
the `diff` string by the source) and the first changed line. -/
structure DiffResult where
  rows : List (List Nat)
  firstChangedLine : Option Nat

deriving DecidableEq, Repr

/-- Body of `formatUnifiedDiff` on the already-split lines of the raw diff. -/
def formatUnifiedDiffLines (lines : List (List Nat)) : DiffResult :=
  let entries := parseUDiff lines 0 0 false
  if entries = [] then ⟨[], none⟩
  else
    let res := emitLoop (widthOf entries) (nearB entries) entries 0 none none
    ⟨res.1, res.2⟩

/-- Models `formatUnifiedDiff(udiff)`: split the raw report on newlines and format. -/
def formatUnifiedDiff (udiff : List Nat) : DiffResult :=
  formatUnifiedDiffLines (splitNL udiff)

/-- Models `out.join("\n")` — the `diff` string of the result. -/
def diffText (r : DiffResult) : List Nat := joinNL r.rows

/-- The indices the emit loop keeps (changed entries, and context entries in
the `near` set), starting at absolute index `i`. -/
def keptFrom (near : Nat → Bool) : List DiffEntry → Nat → List Nat
  | [], _ => []
  | e :: es, i =>
    if e.t = EType.c ∧ near i = false then keptFrom near es (i + 1)
    else i :: keptFrom near es (i + 1)

/-- All kept indices of an entry list. -/
def keptIdxList (entries : List DiffEntry) : List Nat := keptFrom (nearB entries) entries 0

/-- Number of adjacent gaps (interior omitted runs) in a list of indices. -/
def countGaps : List Nat → Nat
  | x :: y :: rest => (if x + 1 < y then 1 else 0) + countGaps (y :: rest)
  | _ => 0

/-- Number of maximal runs of consecutive indices in a sorted list. -/
def countRuns : List Nat → Nat
  | [] => 0
  | [_] => 1
  | x :: y :: rest => (if y = x + 1 then 0 else 1) + countRuns (y :: rest)

/-- Indices of context entries omitted from the report. -/
def omittedIdxList (entries : List DiffEntry) : List Nat :=
  (List.range entries.length).filter fun j => decide (j ∉ keptIdxList entries)

/-- Largest line number among the entries actually emitted into the report. -/
def maxEmittedLine (entries : List DiffEntry) : Nat :=
  ((keptIdxList entries).map
    (fun k => (entries.getD k ⟨EType.c, 0, []⟩).line)).foldl max 0

/-- The number of markers the emit loop will produce from state `last` over
the kept indices `ks`. -/
def gapsFrom (last : Option Nat) (ks : List Nat) : Nat :=
  match last with
  | some l => countGaps (l :: ks)
  | none => countGaps ks

theorem splitNL_ne_nil (l : List Nat) : splitNL l ≠ [] := by
  induction l with
  | nil => simp [splitNL]
  | cons c rest ih =>
    simp only [splitNL]
    split
    · simp
    · split <;> simp_all

theorem joinNL_splitNL (l : List Nat) : joinNL (splitNL l) = l := by
  induction l with
  | nil => rfl
  | cons c rest ih =>
    simp only [splitNL]
    split
    · rename_i hc
      subst hc
      rcases h : splitNL rest with _ | ⟨p, ps⟩
      · exact absurd h (splitNL_ne_nil rest)
      · rw [h] at ih
        simp [joinNL]
        cases ps <;> simp_all [joinNL]
    · rcases h : splitNL rest with _ | ⟨p, ps⟩
      · exact absurd h (splitNL_ne_nil rest)
      · rw [h] at ih
        cases ps <;> simp_all [joinNL]

theorem scanHash_count (hash : List Nat) (ls : List (List Nat)) (i : Nat) :
    (scanHash hash ls i).2 = ls.countP (fun l => decide (hashMatch hash l)) := by
  induction ls generalizing i with
  | nil => rfl
  | cons l ls ih =>
    simp only [scanHash, List.countP_cons]
    split
    · rename_i hm
      simp [ih, hm]
    · rename_i hm
      simp [ih, hm]

theorem scanHash_none_iff (hash : List Nat) (ls : List (List Nat)) (i : Nat) :
    (scanHash hash ls i).1 = none ↔ ∀ l ∈ ls, ¬ hashMatch hash l := by
  induction ls generalizing i with
  | nil => simp [scanHash]
  | cons l ls ih =>
    simp only [scanHash]
    split
    · rename_i hm
      simp [hm]
    · rename_i hm
      simp only [List.mem_cons]
      rw [ih (i + 1)]
      constructor
      · rintro h l' (rfl | hl')
        · exact hm
        · exact h l' hl'
      · intro h l' hl'
        exact h l' (Or.inr hl')

theorem scanHash_some_iff (hash : List Nat) (ls : List (List Nat)) (i m : Nat) :
    (scanHash hash ls i).1 = some m ↔
      ∃ k, k < ls.length ∧ m = i + k + 1 ∧ hashMatch hash (ls.getD k []) ∧
        ∀ k', k' < k → ¬ hashMatch hash (ls.getD k' []) := by
  induction ls generalizing i m with
  | nil => simp [scanHash]
  | cons l ls ih =>
    simp only [scanHash]
    split
    · rename_i hm
      simp only [Option.some.injEq]
      constructor
      · rintro rfl
        exact ⟨0, by simp, by omega, by simpa using hm, by omega⟩
      · rintro ⟨k, hk, rfl, hmk, hlt⟩
        rcases k with _ | k
        · omega
        · exact absurd hm (hlt 0 (by omega))
    · rename_i hm
      rw [ih (i + 1) m]
      constructor
      · rintro ⟨k, hk, rfl, hmk, hlt⟩
        refine ⟨k + 1, by simpa using hk, by omega, by simpa using hmk, ?_⟩
        rintro (_ | k') hk'
        · simpa using hm
        · simpa using hlt k' (by omega)
      · rintro ⟨k, hk, rfl, hmk, hlt⟩
        rcases k with _ | k
        · exact absurd (by simpa using hmk) hm
        · refine ⟨k, by simpa using hk, by omega, by simpa using hmk, ?_⟩
          intro k' hk'
          simpa using hlt (k' + 1) (by omega)

theorem drop_getD (l : List (List Nat)) (s k : Nat) :
    (l.drop s).getD k [] = l.getD (s + k) [] := by
  simp [List.getD_eq_getElem?_getD, List.getElem?_drop]

theorem scanHash_drop_none (fileLines : List (List Nat)) (hash : List Nat) (s : Nat)
    (hlt : ∀ j, matchesAt fileLines hash j → j < s + 1) :
    (scanHash hash (fileLines.drop s) s).1 = none := by
  rw [scanHash_none_iff]
  intro l hl hm
  obtain ⟨k, hk, rfl⟩ := List.mem_iff_getElem.mp hl
  have hklen : s + k < fileLines.length := by
    have := hk
    simp only [List.length_drop] at this
    omega
  have hgetd : (fileLines.drop s)[k] = fileLines.getD (s + k) [] := by
    rw [← drop_getD fileLines s k]
    simp [List.getD_eq_getElem?_getD, List.getElem?_eq_getElem hk]
  have hmat : matchesAt fileLines hash (s + k + 1) := by
    refine ⟨by omega, by omega, ?_⟩
    simpa [Nat.add_sub_cancel, hgetd] using hm
  have := hlt (s + k + 1) hmat
  omega

theorem scanHash_drop_some (fileLines : List (List Nat)) (hash : List Nat) (s m : Nat)
    (h : (scanHash hash (fileLines.drop s) s).1 = some m) :
    matchesAt fileLines hash m ∧ s + 1 ≤ m ∧
      ∀ j, matchesAt fileLines hash j → s + 1 ≤ j → m ≤ j := by
  rw [scanHash_some_iff] at h
  obtain ⟨k, hk, rfl, hmk, hmin⟩ := h
  have hklen : s + k < fileLines.length := by
    simp only [List.length_drop] at hk
    omega
  rw [drop_getD] at hmk
  refine ⟨⟨by omega, by omega, by simpa [Nat.add_sub_cancel] using hmk⟩, by omega, ?_⟩
  intro j hj hsj
  by_contra hlt
  push_neg at hlt
  have hk' : j - 1 - s < k := by omega
  have := hmin (j - 1 - s) hk'
  rw [drop_getD] at this
  have hidx : s + (j - 1 - s) = j - 1 := by omega
  rw [hidx] at this
  exact this hj.2.2

theorem scanHash_drop_ex (fileLines : List (List Nat)) (hash : List Nat) (s : Nat)
    (hex : ∃ j, matchesAt fileLines hash j ∧ s + 1 ≤ j) :
    (scanHash hash (fileLines.drop s) s).1 ≠ none := by
  obtain ⟨j, hj, hsj⟩ := hex
  intro hnone
  rw [scanHash_none_iff] at hnone
  have hjlen : j - 1 < fileLines.length := by
    obtain ⟨h1, h2, _⟩ := hj
    omega
  have hk : j - 1 - s < (fileLines.drop s).length := by
    simp only [List.length_drop]
    omega
  have hmem : (fileLines.drop s)[j - 1 - s] ∈ fileLines.drop s := List.getElem_mem hk
  refine hnone _ hmem ?_
  have hgetd : (fileLines.drop s)[j - 1 - s] = fileLines.getD (j - 1) [] := by
    have hdg : (fileLines.drop s).getD (j - 1 - s) [] =
        fileLines.getD (s + (j - 1 - s)) [] := drop_getD fileLines s (j - 1 - s)
    have hidx : s + (j - 1 - s) = j - 1 := by omega
    rw [hidx] at hdg
    rw [← hdg]
    simp [List.getD_eq_getElem?_getD, List.getElem?_eq_getElem hk]
  rw [hgetd]
  exact hj.2.2

/-- C5: round trip under the mark-all policy — resolving the shown hash of a
non-empty line `i` with `offset = i` returns exactly line `i` (and is not
ambiguous). -/
theorem resolveHash_roundTrip (lines : List (List Nat)) (i : Nat)
    (h1 : 1 ≤ i) (h2 : i ≤ lines.length) (h3 : (lines.getD (i - 1) []).length ≠ 0) :
    resolveHash lines (lineHash (lines.getD (i - 1) [])) (some i) =
      .ok ⟨i, false⟩ := by
  unfold resolveHash
  simp only
  have hm : (scanHash (lineHash (lines.getD (i - 1) [])) (lines.drop (i - 1)) (i - 1)).1 =
      some i := by
    rw [scanHash_some_iff]
    refine ⟨0, ?_, by omega, ?_, ?_⟩
    · have hd : (lines.drop (i - 1)).length = lines.length - (i - 1) := by simp
      omega
    · rw [drop_getD, Nat.add_zero]
      exact ⟨Nat.pos_of_ne_zero h3, rfl⟩
    · intro k' hk'
      exact absurd hk' (Nat.not_lt_zero k')
  rw [hm]
  simp

/-- Witness for C5 at a concrete snapshot. -/
theorem resolveHash_roundTrip_witness :
    resolveHash [cu "x", cu "y", cu "x"] (lineHash (cu "x")) (some 3) =
      .ok ⟨3, false⟩ := by
  have h := resolveHash_roundTrip [cu "x", cu "y", cu "x"] 3
    (by decide) (by decide) (by decide)
  simpa using h

/-- C4: zero candidates in the searched region (at or after the offset when one
is supplied, the whole snapshot otherwise) makes `resolveHash` fail with the
stale-anchor error telling the caller to re-read; it never returns a line
number. -/
theorem resolveHash_stale (fileLines : List (List Nat)) (hash : List Nat)
    (offset : Option Nat) (hoff : ∀ o, offset = some o → 1 ≤ o)
    (hzero : ∀ j, matchesAt fileLines hash j → ∃ o, offset = some o ∧ j < o) :
    resolveHash fileLines hash offset = .error (.staleAnchor hash offset) := by
  cases offset with
  | none =>
    have hnone := scanHash_drop_none fileLines hash 0 (fun j hj => by
      obtain ⟨o, ho, _⟩ := hzero j hj
      cases ho)
    simp only [resolveHash, hnone]
  | some o =>
    have h1 : 1 ≤ o := hoff o rfl
    have hnone := scanHash_drop_none fileLines hash (o - 1) (fun j hj => by
      obtain ⟨o', ho', hlt⟩ := hzero j hj
      have : o' = o := by injection ho' with h; omega
      omega)
    simp only [resolveHash, hnone]

/-- Witness for C4: an anchor absent from the snapshot fails. -/
theorem resolveHash_stale_witness :
    resolveHash [cu "x"] (cu "zz") none = .error (.staleAnchor (cu "zz") none) := by
  refine resolveHash_stale [cu "x"] (cu "zz") none (by simp) ?_
  intro j hj
  obtain ⟨h1, h2, h3⟩ := hj
  have h2' : j ≤ 1 := by simpa using h2
  have : j = 1 := by omega
  subst this
  exact absurd h3 (by decide)

example : lineHash (cu "a") = cu "xE" := by decide

example : lineHash (cu "b") = cu "pV" := by decide

example : lineHash [] = lineHash [370] := by decide

example : resolveHash [cu "x", cu "y", cu "x"] (lineHash (cu "x")) (some 3) =
    .ok ⟨3, false⟩ := by decide

example : resolveHash [cu "x", cu "y", cu "x"] (lineHash (cu "x")) none =
    .ok ⟨1, true⟩ := by decide

example : splitNL (cu "a\nb\n") = [cu "a", cu "b", []] := by decide

/-- C3: for an anchor with more than one matching non-empty line: with an
offset, `resolveHash` returns the first candidate at or after the offset (not
flagged ambiguous) and fails with the stale-anchor error when no candidate
lies at or after it; with no offset it returns the first candidate of the
whole snapshot, flagged ambiguous. -/
theorem resolveHash_duplicates (fileLines : List (List Nat)) (hash : List Nat)
    (hc : 1 < countMatches fileLines hash) :
    (∀ o, 1 ≤ o → (∃ j, matchesAt fileLines hash j ∧ o ≤ j) →
      ∃ m, resolveHash fileLines hash (some o) = .ok ⟨m, false⟩ ∧
        matchesAt fileLines hash m ∧ o ≤ m ∧
        ∀ j, matchesAt fileLines hash j → o ≤ j → m ≤ j) ∧
    (∀ o, 1 ≤ o → (∀ j, matchesAt fileLines hash j → j < o) →
      resolveHash fileLines hash (some o) = .error (.staleAnchor hash (some o))) ∧
    (∃ m, resolveHash fileLines hash none = .ok ⟨m, true⟩ ∧
      matchesAt fileLines hash m ∧ ∀ j, matchesAt fileLines hash j → m ≤ j) := by
  refine ⟨?_, ?_, ?_⟩
  · intro o ho hex
    rcases hscan : (scanHash hash (fileLines.drop (o - 1)) (o - 1)).1 with _ | m
    · exact absurd hscan (scanHash_drop_ex fileLines hash (o - 1)
        (by obtain ⟨j, hj, hoj⟩ := hex; exact ⟨j, hj, by omega⟩))
    · obtain ⟨hm, hsm, hmin⟩ := scanHash_drop_some fileLines hash (o - 1) m hscan
      refine ⟨m, ?_, hm, by omega, fun j hj hoj => hmin j hj (by omega)⟩
      simp only [resolveHash, hscan]
      simp
  · intro o ho hnone
    have h := scanHash_drop_none fileLines hash (o - 1) (fun j hj => by
      have := hnone j hj; omega)
    simp only [resolveHash, h]
  · have hex : ∃ j, matchesAt fileLines hash j ∧ 0 + 1 ≤ j := by
      have hpos : 0 < fileLines.countP (fun l => decide (hashMatch hash l)) := by
        unfold countMatches at hc; omega
      rw [List.countP_pos_iff] at hpos
      obtain ⟨l, hl, hpl⟩ := hpos
      obtain ⟨k, hk, rfl⟩ := List.mem_iff_getElem.mp hl
      refine ⟨k + 1, ⟨by omega, by omega, ?_⟩, by omega⟩
      have hg : fileLines.getD k [] = fileLines[k] := by
        simp [List.getD_eq_getElem?_getD, List.getElem?_eq_getElem hk]
      rw [Nat.add_sub_cancel, hg]
      exact of_decide_eq_true hpl
    rcases hscan : (scanHash hash (fileLines.drop 0) 0).1 with _ | m
    · exact absurd hscan (scanHash_drop_ex fileLines hash 0 hex)
    · obtain ⟨hm, _, hmin⟩ := scanHash_drop_some fileLines hash 0 m hscan
      refine ⟨m, ?_, hm, fun j hj => hmin j hj hj.1⟩
      have hcount : (scanHash hash (fileLines.drop 0) 0).2 = countMatches fileLines hash := by
        rw [scanHash_count]
        simp [countMatches]
      simp only [resolveHash, hscan]
      rw [hcount]
      simp [decide_eq_true hc]

/-- Witness for C3 on the spec's own example `["x","y","x"]`. -/
theorem resolveHash_duplicates_witness :
    resolveHash [cu "x", cu "y", cu "x"] (lineHash (cu "x")) (some 3) = .ok ⟨3, false⟩ ∧
    resolveHash [cu "x", cu "y", cu "x"] (lineHash (cu "x")) none = .ok ⟨1, true⟩ := by
  have h := resolveHash_duplicates [cu "x", cu "y", cu "x"] (lineHash (cu "x")) (by decide)
  constructor
  · obtain ⟨m, hr, hm, h3m, hmin⟩ := h.1 3 (by decide) ⟨3, by decide, by decide⟩
    have hlen : m ≤ 3 := by simpa using hm.2.1
    have : m = 3 := by omega
    subst this
    exact hr
  · obtain ⟨m, hr, hm, hmin⟩ := h.2.2
    have hm1 : m ≤ 1 := hmin 1 (by decide)
    have hm2 : 1 ≤ m := hm.1
    have : m = 1 := by omega
    subst this
    exact hr

theorem joinNL_concat (l' : List (List Nat)) (a : List Nat) :
    joinNL (l' ++ [a]) = if l' = [] then a else joinNL l' ++ 10 :: a := by
  induction l' with
  | nil => simp [joinNL]
  | cons p ps ih =>
    cases ps with
    | nil => simp [joinNL]
    | cons q qs =>
      show joinNL (p :: ((q :: qs) ++ [a])) = joinNL (p :: q :: qs) ++ 10 :: a
      rw [show joinNL (p :: ((q :: qs) ++ [a])) = p ++ 10 :: joinNL ((q :: qs) ++ [a]) from rfl,
        ih]
      simp [joinNL]

/-- Dropping a non-empty last part makes the joined string strictly shorter. -/
theorem joinNL_dropLast_length (parts : List (List Nat)) (hne : parts ≠ [])
    (hlast : parts.getLastD [] ≠ []) :
    (normalizeContent (some (joinNL parts.dropLast))).length < (joinNL parts).length := by
  rcases List.eq_nil_or_concat parts with rfl | ⟨l', a, hcat⟩
  · exact absurd rfl hne
  · rw [List.concat_eq_append] at hcat
    subst hcat
    have hga : (l' ++ [a]).getLastD [] = a := by
      simp [List.getLastD_eq_getLast?, List.getLast?_concat]
    rw [hga] at hlast
    have halen : 0 < a.length := List.length_pos.mpr hlast
    have hdl : (l' ++ [a]).dropLast = l' := by simp
    rw [hdl, joinNL_concat]
    by_cases hl' : l' = []
    · subst hl'
      simp [normalizeContent, joinNL]
      omega
    · rw [if_neg hl']
      have hnorm : (normalizeContent (some (joinNL l'))).length ≤ (joinNL l').length + 1 := by
        simp only [normalizeContent]
        split <;> simp
      simp only [List.length_append, List.length_cons]
      omega

/-- C1: for an edit request targeting existing lines, the executor argument
vector is produced (`Except.ok`) exactly when the start anchor resolves, the
stop anchor (when present, searched from `offset ?? lineStart`) resolves, and
the resolved stop does not precede the resolved start; any resolution failure
or range failure yields `Except.error` — the throw happens before the mutation
executor is reached, leaving the file unchanged. -/
theorem changeFileDispatch_guard (fileLines : List (List Nat)) (hashStart : List Nat)
    (hashStop : Option (List Nat)) (offset : Option Nat) (content : Option (List Nat))
    (hoff : ∀ o, offset = some o → 1 ≤ o) :
    (∃ d, changeFileDispatch fileLines hashStart hashStop offset content = .ok d) ↔
      ∃ r1, resolveHash fileLines hashStart offset = .ok r1 ∧
        (hashStop = none ∨
          ∃ hs r2, hashStop = some hs ∧
            resolveHash fileLines hs (some (offset.getD r1.line)) = .ok r2 ∧
            r1.line ≤ r2.line) := by
  rcases h1 : resolveHash fileLines hashStart offset with e1 | r1
  · constructor
    · rintro ⟨d, hd⟩
      rw [changeFileDispatch.eq_def, h1] at hd
      cases hd
    · rintro ⟨r1, hr1, _⟩
      cases hr1
  · cases hashStop with
    | none =>
      constructor
      · rintro ⟨d, _⟩
        exact ⟨r1, rfl, Or.inl rfl⟩
      · rintro _
        apply Exists.intro
        rw [changeFileDispatch.eq_def, h1]
    | some hs =>
      rcases h2 : resolveHash fileLines hs (some (offset.getD r1.line)) with e2 | r2
      · constructor
        · rintro ⟨d, hd⟩
          rw [changeFileDispatch.eq_def, h1] at hd
          simp only [h2] at hd
          cases hd
        · rintro ⟨r1', hr1', hrest⟩
          injection hr1' with hr1'
          subst hr1'
          rcases hrest with h | ⟨hs', r2', heq, hres2, _⟩
          · cases h
          · injection heq with heq
            subst heq
            rw [h2] at hres2
            cases hres2
      · by_cases hlt : r2.line < r1.line
        · constructor
          · rintro ⟨d, hd⟩
            rw [changeFileDispatch.eq_def, h1] at hd
            simp only [h2, if_pos hlt] at hd
            cases hd
          · rintro ⟨r1', hr1', hrest⟩
            injection hr1' with hr1'
            subst hr1'
            rcases hrest with h | ⟨hs', r2', heq, hres2, hle⟩
            · cases h
            · injection heq with heq
              subst heq
              rw [h2] at hres2
              injection hres2 with hres2
              subst hres2
              omega
        · constructor
          · rintro ⟨d, _⟩
            exact ⟨r1, rfl, Or.inr ⟨hs, r2, rfl, h2, by omega⟩⟩
          · rintro _
            apply Exists.intro
            rw [changeFileDispatch.eq_def, h1]
            simp only [h2, if_neg hlt]
            rfl

/-- Witness for C1: a request whose stop anchor precedes its start anchor is
rejected before dispatch, and a well-formed request is dispatched. -/
theorem changeFileDispatch_guard_witness :
    (¬ ∃ d, changeFileDispatch [cu "a", cu "b", cu "a"] (lineHash (cu "b"))
        (some (lineHash (cu "a"))) (some 1) (some (cu "z")) = .ok d) ∧
    (∃ d, changeFileDispatch [cu "a", cu "b"] (lineHash (cu "a"))
        (some (lineHash (cu "b"))) none (some (cu "z")) = .ok d) := by
  constructor
  · rintro ⟨d, hd⟩
    have he : changeFileDispatch [cu "a", cu "b", cu "a"] (lineHash (cu "b"))
        (some (lineHash (cu "a"))) (some 1) (some (cu "z")) =
        .error (.invalidRange 1 2) := by decide
    rw [he] at hd
    cases hd
  · exact (changeFileDispatch_guard [cu "a", cu "b"] (lineHash (cu "a"))
      (some (lineHash (cu "b"))) none (some (cu "z"))
      (by intro o ho; cases ho)).mpr
      ⟨⟨1, false⟩, by decide, Or.inr ⟨lineHash (cu "b"), ⟨2, false⟩, rfl, by decide, by decide⟩⟩

/-- C2 (code vs. claim/comment): on file `["a","b","a"]` with
`hash_start = lineHash "b"`, `hash_stop = lineHash "a"` and `offset = 1`, the
code resolves the stop anchor searching from `offset ?? lineStart` = line 1 —
i.e. BEFORE the resolved start (line 2) — finds line 1 and throws the
invalid-range error, even though a stop candidate at or after the start
exists (line 3): searching from the resolved start (as the source's own
comment and the spec require) would return `line 3` and let the edit proceed. -/
theorem changeFile_stopSearch_divergence :
    changeFileDispatch [cu "a", cu "b", cu "a"] (lineHash (cu "b"))
        (some (lineHash (cu "a"))) (some 1) (some (cu "z")) =
      .error (.invalidRange 1 2) ∧
    resolveHash [cu "a", cu "b", cu "a"] (lineHash (cu "b")) (some 1) = .ok ⟨2, false⟩ ∧
    resolveHash [cu "a", cu "b", cu "a"] (lineHash (cu "a")) (some 2) = .ok ⟨3, false⟩ := by
  refine ⟨?_, by decide, by decide⟩
  decide

/-- C9: `tagLines` yields exactly one annotated entry per input line; empty
lines render the reserved blank marker and never a hash, non-empty lines
render their 2-character hash, `"|"`, and their content — even for duplicated
hashes (mark-all) — and a hash-tagged rendering can never collide with the
blank marker. -/
theorem tagLines_spec (lines : List (List Nat)) :
    (tagLines lines).length = lines.length ∧
    (∀ i, i < lines.length →
      (tagLines lines).getD i [] =
        (if (lines.getD i []).length = 0 then blankMarker
         else lineHash (lines.getD i []) ++ 124 :: lines.getD i [])) ∧
    (∀ line : List Nat, (lineHash line).length = 2) ∧
    (∀ line : List Nat, lineHash line ++ 124 :: line ≠ blankMarker) := by
  refine ⟨by simp [tagLines], ?_, fun line => rfl, ?_⟩
  · intro i hi
    have h1 : (tagLines lines).getD i [] =
        (fun line => if line.length = 0 then blankMarker
          else lineHash line ++ 124 :: line) (lines[i]) := by
      simp [tagLines, List.getD_eq_getElem?_getD, List.getElem?_eq_getElem hi,
        List.getElem?_map]
    have h2 : lines.getD i [] = lines[i] := by
      simp [List.getD_eq_getElem?_getD, List.getElem?_eq_getElem hi]
    rw [h1, h2]
  · intro line heq
    have hB : 48 ≤ B62 (fnv1a line % 3844 / 62) := by
      unfold B62
      split
      · omega
      · split <;> omega
    have hhead : lineHash line ++ 124 :: line =
        B62 (fnv1a line % 3844 / 62) :: B62 (fnv1a line % 3844 % 62) :: 124 :: line := rfl
    rw [hhead] at heq
    have : B62 (fnv1a line % 3844 / 62) = 32 := by
      have := congrArg (fun l => l.headD 0) heq
      simpa [blankMarker] using this
    omega

/-- Witness for C9 on a file with a non-empty and an empty line. -/
theorem tagLines_spec_witness :
    (tagLines [cu "a", []]).getD 0 [] = lineHash (cu "a") ++ 124 :: cu "a" ∧
    (tagLines [cu "a", []]).getD 1 [] = blankMarker := by
  have h := tagLines_spec [cu "a", []]
  constructor
  · have h0 := h.2.1 0 (by decide)
    rw [h0]
    decide
  · have h1 := h.2.1 1 (by decide)
    rw [h1]
    decide

/-- C10 (amended): in insert mode (start anchor only, truthy content), when
the last line of the split content has the same `lineHash` as the line being
inserted before, that last content line is silently dropped before the
insertion is dispatched; whenever the dropped line is itself non-empty, the
dispatched text is strictly shorter than the content the caller supplied.
(When the dropped line is empty — possible only through a hash collision with
the empty string, since the target line of a resolved anchor is never empty —
trailing-newline normalization can make the dispatched text identical to the
supplied content; see the counterexample.) -/
theorem changeFile_insertDropTail (fileLines : List (List Nat)) (hashStart : List Nat)
    (offset : Option Nat) (c : List Nat) (hc : c ≠ []) (r1 : ResolveResult)
    (hres : resolveHash fileLines hashStart offset = .ok r1)
    (hdup : lineHash ((splitNL c).getLastD []) =
      lineHash (fileLines.getD (r1.line - 1) [])) :
    ∃ d, changeFileDispatch fileLines hashStart none offset (some c) = .ok d ∧
      d.mode = EditMode.insert ∧
      d.content = normalizeContent (some (joinNL (splitNL c).dropLast)) ∧
      ((splitNL c).getLastD [] ≠ [] → d.content.length < c.length) := by
  have htruthy : contentTruthy (some c) = true := by
    simp [contentTruthy, hc]
  have hdrop : dropDupTail fileLines r1.line c = joinNL (splitNL c).dropLast := by
    unfold dropDupTail
    rw [if_pos]
    exact ⟨List.length_pos.mpr (splitNL_ne_nil c), hdup⟩
  refine ⟨⟨EditMode.insert, r1.line, r1.line,
    normalizeContent (some (joinNL (splitNL c).dropLast))⟩, ?_, rfl, rfl, ?_⟩
  · rw [changeFileDispatch.eq_def, hres]
    simp only [htruthy]
    simp [hdrop]
  · intro hlast
    have := joinNL_dropLast_length (splitNL c) (splitNL_ne_nil c) hlast
    calc (normalizeContent (some (joinNL (splitNL c).dropLast))).length
        < (joinNL (splitNL c)).length := this
      _ = c.length := by rw [joinNL_splitNL]

/-- Witness for C10 at a concrete insert whose duplicated trailing line is
non-empty: supplied `"a\nx"` before the line `"x"`, dispatched `"a\n"`. -/
theorem changeFile_insertDropTail_witness :
    ∃ d, changeFileDispatch [cu "x"] (lineHash (cu "x")) none none (some (cu "a\nx")) =
        .ok d ∧
      d.mode = EditMode.insert ∧
      d.content = normalizeContent (some (joinNL (splitNL (cu "a\nx")).dropLast)) ∧
      ((splitNL (cu "a\nx")).getLastD [] ≠ [] → d.content.length < (cu "a\nx").length) := by
  exact changeFile_insertDropTail [cu "x"] (lineHash (cu "x")) none (cu "a\nx")
    (by decide) ⟨1, false⟩ (by decide) (by decide)

/-- C10 (counterexample to "the inserted text is shorter than what the caller
supplied"): the character U+0172 (code unit 370) has the same 2-character
hash as the empty string; inserting `"w\n"` before that line drops the empty
trailing split line, but newline normalization restores it — the dispatched
content equals the supplied content byte for byte. -/
theorem changeFile_insertDropTail_counterexample :
    (splitNL (cu "w\n")).getLastD [] = [] ∧
    lineHash ((splitNL (cu "w\n")).getLastD []) = lineHash [370] ∧
    changeFileDispatch [[370]] (lineHash [370]) none none (some (cu "w\n")) =
      .ok ⟨EditMode.insert, 1, 1, cu "w\n"⟩ := by
  refine ⟨by decide, by decide, ?_⟩
  decide

theorem fcUpd_some (e : DiffEntry) (v : Nat) : fcUpd e (some v) = some v := by
  unfold fcUpd
  rw [if_neg]
  rintro ⟨-, h⟩
  cases h

theorem emitLoop_fc_some (w : Nat) (near : Nat → Bool) (es : List DiffEntry)
    (i : Nat) (last : Option Nat) (v : Nat) :
    (emitLoop w near es i last (some v)).2 = some v := by
  induction es generalizing i last with
  | nil => rfl
  | cons e es ih =>
    simp only [emitLoop]
    split
    · exact ih (i + 1) last
    · simp only [fcUpd_some]
      exact ih (i + 1) (some i)

theorem emitLoop_fc_none (w : Nat) (near : Nat → Bool) (es : List DiffEntry)
    (i : Nat) (last : Option Nat) :
    (emitLoop w near es i last none).2 =
      (es.find? fun e => decide (e.t ≠ EType.c)).map (fun e => e.line) := by
  induction es generalizing i last with
  | nil => rfl
  | cons e es ih =>
    by_cases hc : e.t = EType.c
    · have hfind : (List.find? (fun e => decide (e.t ≠ EType.c)) (e :: es)) =
          List.find? (fun e => decide (e.t ≠ EType.c)) es := by
        rw [List.find?_cons_of_neg]
        simp [hc]
      rw [hfind]
      simp only [emitLoop]
      split
      · exact ih (i + 1) last
      · have hupd : fcUpd e none = none := by
          unfold fcUpd
          rw [if_neg]
          rintro ⟨h, -⟩
          exact h hc
        simp only [hupd]
        exact ih (i + 1) (some i)
    · have hfind : (List.find? (fun e => decide (e.t ≠ EType.c)) (e :: es)) = some e := by
        rw [List.find?_cons_of_pos]
        simp [hc]
      rw [hfind]
      simp only [emitLoop]
      rw [if_neg (by rintro ⟨h, -⟩; exact hc h)]
      have hupd : fcUpd e none = some e.line := by
        unfold fcUpd
        rw [if_pos ⟨hc, rfl⟩]
      simp only [hupd]
      simp [emitLoop_fc_some]

theorem emitLoop_rows_mem (w : Nat) (near : Nat → Bool) (es : List DiffEntry)
    (i : Nat) (last fc : Option Nat) (row : List Nat)
    (hrow : row ∈ (emitLoop w near es i last fc).1) :
    row = markerRow w ∨
      ∃ k, ∃ hk : k < es.length,
        (es[k].t ≠ EType.c ∨ near (i + k) = true) ∧ row = renderRow w es[k] := by
  induction es generalizing i last fc with
  | nil => cases hrow
  | cons e es ih =>
    simp only [emitLoop] at hrow
    split at hrow
    · rcases ih (i + 1) last fc hrow with h | ⟨k, hk, hcond, hr⟩
      · exact Or.inl h
      · refine Or.inr ⟨k + 1, by simpa using hk, ?_, by simpa using hr⟩
        simpa [Nat.add_assoc, Nat.add_comm 1 k] using hcond
    · rename_i hkeep
      simp only [List.mem_append, List.mem_cons] at hrow
      rcases hrow with hm | hr | hrest
      · left
        cases hg : gapB last i
        · rw [hg] at hm
          simp at hm
        · rw [hg] at hm
          simpa using hm
      · right
        refine ⟨0, by simp, ?_, by simpa using hr⟩
        simp only [List.getElem_cons_zero]
        rcases Decidable.em (e.t = EType.c) with hc | hc
        · right
          cases hn : near i
          · exact absurd ⟨hc, hn⟩ hkeep
          · exact hn
        · exact Or.inl hc
      · rcases ih (i + 1) (some i) _ hrest with h | ⟨k, hk, hcond, hr⟩
        · exact Or.inl h
        · refine Or.inr ⟨k + 1, by simpa using hk, ?_, by simpa using hr⟩
          simpa [Nat.add_assoc, Nat.add_comm 1 k] using hcond

theorem countGaps_cons_cons (x y : Nat) (rest : List Nat) :
    countGaps (x :: y :: rest) = (if x + 1 < y then 1 else 0) + countGaps (y :: rest) := rfl

theorem emitLoop_len (w : Nat) (near : Nat → Bool) (es : List DiffEntry)
    (i : Nat) (fc last : Option Nat) :
    (emitLoop w near es i last fc).1.length =
      (keptFrom near es i).length + gapsFrom last (keptFrom near es i) := by
  induction es generalizing i fc last with
  | nil => cases last <;> rfl
  | cons e es ih =>
    simp only [emitLoop, keptFrom]
    split
    · exact ih (i + 1) fc last
    · simp only [List.length_append, List.length_cons]
      rw [ih (i + 1) (fcUpd e fc) (some i)]
      cases last with
      | none =>
        have hg : gapB none i = false := rfl
        rw [hg]
        simp only [if_neg (by simp : ¬ (false : Bool) = true), List.length_nil]
        simp only [gapsFrom]
        omega
      | some l =>
        simp only [gapsFrom, countGaps_cons_cons]
        have hgd : gapB (some l) i = decide (1 < i - l) := rfl
        by_cases h : 1 < i - l
        · simp only [hgd, decide_eq_true h, if_pos (show l + 1 < i by omega)]
          simp
          omega
        · simp only [hgd, decide_eq_false h, if_neg (show ¬ l + 1 < i by omega)]
          simp only [if_neg (by simp : ¬ (false : Bool) = true), List.length_nil]
          omega

theorem emitLoop_count (w : Nat) (near : Nat → Bool) (es : List DiffEntry)
    (i : Nat) (fc last : Option Nat)
    (hne : ∀ e ∈ es, renderRow w e ≠ markerRow w) :
    (emitLoop w near es i last fc).1.count (markerRow w) =
      gapsFrom last (keptFrom near es i) := by
  induction es generalizing i fc last with
  | nil => cases last <;> rfl
  | cons e es ih =>
    have hne' : ∀ e' ∈ es, renderRow w e' ≠ markerRow w :=
      fun e' he' => hne e' (List.mem_cons_of_mem e he')
    have hnee : renderRow w e ≠ markerRow w := hne e (List.mem_cons_self e es)
    simp only [emitLoop, keptFrom]
    split
    · exact ih (i + 1) fc last hne'
    · rw [List.count_append, List.count_cons_of_ne (Ne.symm hnee)]
      rw [ih (i + 1) (fcUpd e fc) (some i) hne']
      cases last with
      | none =>
        have hg : gapB none i = false := rfl
        rw [hg]
        simp only [if_neg (by simp : ¬ (false : Bool) = true)]
        simp [gapsFrom]
      | some l =>
        simp only [gapsFrom, countGaps_cons_cons]
        have hgd : gapB (some l) i = decide (1 < i - l) := rfl
        by_cases h : 1 < i - l
        · simp only [hgd, decide_eq_true h, if_pos (show l + 1 < i by omega)]
          simp
        · simp only [hgd, decide_eq_false h, if_neg (show ¬ l + 1 < i by omega)]
          simp only [if_neg (by simp : ¬ (false : Bool) = true)]
          simp

theorem keptFrom_bounds (near : Nat → Bool) (es : List DiffEntry) (i : Nat) :
    ∀ k ∈ keptFrom near es i, i ≤ k ∧ k - i < es.length ∧
      ((es.getD (k - i) ⟨EType.c, 0, []⟩).t ≠ EType.c ∨ near k = true) := by
  induction es generalizing i with
  | nil => simp [keptFrom]
  | cons e es ih =>
    intro k hk
    simp only [keptFrom] at hk
    split at hk
    · rename_i hskip
      obtain ⟨h1, h2, h3⟩ := ih (i + 1) k hk
      refine ⟨by omega, by simp; omega, ?_⟩
      have : k - i = (k - (i + 1)) + 1 := by omega
      rw [this, List.getD_cons_succ]
      exact h3
    · rename_i hkeep
      rcases List.mem_cons.mp hk with rfl | hk'
      · refine ⟨le_refl k, by simp, ?_⟩
        rw [Nat.sub_self, List.getD_cons_zero]
        rcases Decidable.em (e.t = EType.c) with hc | hc
        · right
          cases hn : near k
          · exact absurd ⟨hc, hn⟩ hkeep
          · rfl
        · exact Or.inl hc
      · obtain ⟨h1, h2, h3⟩ := ih (i + 1) k hk'
        refine ⟨by omega, by simp; omega, ?_⟩
        have : k - i = (k - (i + 1)) + 1 := by omega
        rw [this, List.getD_cons_succ]
        exact h3

theorem keptFrom_chain (near : Nat → Bool) (es : List DiffEntry) (i : Nat) :
    List.Chain' (· < ·) (keptFrom near es i) ∧ ∀ k ∈ keptFrom near es i, i ≤ k := by
  induction es generalizing i with
  | nil => simp [keptFrom]
  | cons e es ih =>
    simp only [keptFrom]
    split
    · obtain ⟨hc, hb⟩ := ih (i + 1)
      exact ⟨hc, fun k hk => by have := hb k hk; omega⟩
    · obtain ⟨hc, hb⟩ := ih (i + 1)
      constructor
      · rw [List.chain'_cons']
        refine ⟨?_, hc⟩
        intro y hy
        have := hb y (List.mem_of_mem_head? hy)
        omega
      · intro k hk
        rcases List.mem_cons.mp hk with rfl | hk'
        · exact le_refl k
        · have := hb k hk'
          omega

theorem nearB_iff (entries : List DiffEntry) (j : Nat) :
    nearB entries j = true ↔
      ∃ k, ∃ hk : k < entries.length,
        entries[k].t ≠ EType.c ∧ j ≤ k + CONTEXT ∧ k ≤ j + CONTEXT := by
  unfold nearB
  rw [List.any_eq_true]
  constructor
  · rintro ⟨⟨k, e⟩, hmem, hp⟩
    rw [List.mk_mem_enum_iff_getElem?] at hmem
    have hk : k < entries.length := by
      by_contra hcon
      rw [List.getElem?_eq_none (by omega)] at hmem
      cases hmem
    have he : entries[k] = e := by
      rw [List.getElem?_eq_getElem hk] at hmem
      injection hmem
    simp only [Bool.and_eq_true, decide_eq_true_eq] at hp
    exact ⟨k, hk, by rw [he]; exact hp.1.1, hp.1.2, hp.2⟩
  · rintro ⟨k, hk, hc, h1, h2⟩
    refine ⟨(k, entries[k]), ?_, ?_⟩
    · rw [List.mk_mem_enum_iff_getElem?, List.getElem?_eq_getElem hk]
    · simp only [Bool.and_eq_true, decide_eq_true_eq]
      exact ⟨⟨hc, h1⟩, h2⟩

theorem getD_eq_getElem_of_lt (entries : List DiffEntry) (k : Nat) (hk : k < entries.length) :
    entries.getD k ⟨EType.c, 0, []⟩ = entries[k] := by
  simp [List.getD_eq_getElem?_getD, List.getElem?_eq_getElem hk]

theorem keptIdxList_single_bound (entries : List DiffEntry) (i0 : Nat)
    (hone : ∀ k, (hk : k < entries.length) → entries[k].t ≠ EType.c → k = i0) :
    (keptIdxList entries).length ≤ 9 := by
  have hchain := (keptFrom_chain (nearB entries) entries 0).1
  have hpair : (keptIdxList entries).Pairwise (· < ·) :=
    List.chain'_iff_pairwise.mp hchain
  have hnd : (keptIdxList entries).Nodup := hpair.imp (fun h => Nat.ne_of_lt h)
  have hsub : ∀ k ∈ keptIdxList entries, k ∈ Finset.Icc (i0 - 4) (i0 + 4) := by
    intro k hk
    obtain ⟨-, hlt, hcond⟩ := keptFrom_bounds (nearB entries) entries 0 k hk
    rw [Nat.sub_zero] at hlt hcond
    rcases hcond with hch | hnear
    · rw [getD_eq_getElem_of_lt entries k hlt] at hch
      have := hone k hlt hch
      simp only [Finset.mem_Icc]
      omega
    · rw [nearB_iff] at hnear
      obtain ⟨k', hk', hch', h1, h2⟩ := hnear
      have := hone k' hk' hch'
      simp only [CONTEXT] at h1 h2
      simp only [Finset.mem_Icc]
      omega
  calc (keptIdxList entries).length
      = (keptIdxList entries).toFinset.card := (List.toFinset_card_of_nodup hnd).symm
    _ ≤ (Finset.Icc (i0 - 4) (i0 + 4)).card := by
        refine Finset.card_le_card ?_
        intro x hx
        exact hsub x (List.mem_toFinset.mp hx)
    _ = (i0 + 4) + 1 - (i0 - 4) := Nat.card_Icc _ _
    _ ≤ 9 := by omega

theorem decDigitsAux_fuel (f1 f2 n : Nat) (h1 : n < f1) (h2 : n < f2) :
    decDigitsAux f1 n = decDigitsAux f2 n := by
  induction f1 generalizing f2 n with
  | zero => omega
  | succ f1 ih =>
    cases f2 with
    | zero => omega
    | succ f2 =>
      simp only [decDigitsAux]
      split
      · rfl
      · rename_i hn
        have hdiv : n / 10 < n := Nat.div_lt_self (by omega) (by omega)
        rw [ih f2 (n / 10) (by omega) (by omega)]

theorem decDigits_ne_nil (n : Nat) : decDigits n ≠ [] := by
  unfold decDigits
  by_cases hn : n < 10
  · simp [decDigitsAux, hn]
  · simp [decDigitsAux, hn]

theorem decDigits_last (n : Nat) :
    ∃ d, d < 10 ∧ (decDigits n).getLast? = some (48 + d) := by
  unfold decDigits
  by_cases hn : n < 10
  · refine ⟨n, hn, ?_⟩
    simp [decDigitsAux, hn]
  · refine ⟨n % 10, Nat.mod_lt _ (by omega), ?_⟩
    simp only [decDigitsAux, if_neg hn]
    rw [List.getLast?_concat]

theorem decDigits_succ_ge10 (n : Nat) (hn : ¬ n < 10) :
    decDigits n = decDigits (n / 10) ++ [48 + n % 10] := by
  have hdiv : n / 10 < n := Nat.div_lt_self (by omega) (by omega)
  show decDigitsAux (n + 1) n = _
  simp only [decDigitsAux, if_neg hn]
  rw [decDigitsAux_fuel n (n / 10 + 1) (n / 10) (by omega) (by omega)]
  rfl

theorem decDigits_len_mono (m n : Nat) (h : m ≤ n) :
    (decDigits m).length ≤ (decDigits n).length := by
  induction n using Nat.strong_induction_on generalizing m with
  | _ n ih =>
    by_cases hn : n < 10
    · have hm : m < 10 := by omega
      simp [decDigits, decDigitsAux, hm, hn]
    · by_cases hm : m < 10
      · have h1 : (decDigits m).length = 1 := by simp [decDigits, decDigitsAux, hm]
        have h2 : 0 < (decDigits n).length := List.length_pos.mpr (decDigits_ne_nil n)
        omega
      · rw [decDigits_succ_ge10 m hm, decDigits_succ_ge10 n hn]
        simp only [List.length_append, List.length_cons, List.length_nil]
        have hdiv : n / 10 < n := Nat.div_lt_self (by omega) (by omega)
        have := ih (n / 10) hdiv (m / 10) (Nat.div_le_div_right h)
        omega

theorem maxLine_ge (entries : List DiffEntry) : ∀ e ∈ entries, e.line ≤ maxLine entries := by
  have key : ∀ (l : List DiffEntry) (acc : Nat),
      acc ≤ l.foldl (fun mx e => max mx e.line) acc ∧
      ∀ e ∈ l, e.line ≤ l.foldl (fun mx e => max mx e.line) acc := by
    intro l
    induction l with
    | nil => exact fun acc => ⟨le_refl acc, by simp⟩
    | cons e es ih =>
      intro acc
      obtain ⟨hacc, hmem⟩ := ih (max acc e.line)
      refine ⟨le_trans (le_max_left _ _) hacc, ?_⟩
      intro e' he'
      rcases List.mem_cons.mp he' with rfl | he'
      · exact le_trans (le_max_right _ _) hacc
      · exact hmem e' he'
  exact (key entries 0).2

theorem renderRow_ne_markerRow (w : Nat) (e : DiffEntry)
    (hd : (decDigits e.line).length ≤ w) : renderRow w e ≠ markerRow w := by
  intro heq
  unfold renderRow markerRow at heq
  have hhead := List.head_eq_of_cons_eq heq
  have htail := List.tail_eq_of_cons_eq heq
  cases he : e.t with
  | r => rw [he] at hhead; cases hhead
  | a => rw [he] at hhead; cases hhead
  | c =>
    have hlenpad : (padLeft w (decDigits e.line)).length = w := by
      unfold padLeft
      simp only [List.length_append, List.length_replicate]
      omega
    have hpads : padLeft w (decDigits e.line) = List.replicate w 32 := by
      have h1 := congrArg (List.take w) htail
      rw [List.take_left' hlenpad, List.take_left' (by simp)] at h1
      exact h1
    obtain ⟨d, hd10, hlast⟩ := decDigits_last e.line
    have hlast1 : (padLeft w (decDigits e.line)).getLast? = some (48 + d) := by
      unfold padLeft
      rw [List.getLast?_append_of_ne_nil _ (decDigits_ne_nil e.line)]
      exact hlast
    have hw : 0 < w := by
      have := List.length_pos.mpr (decDigits_ne_nil e.line)
      omega
    have hlast2 : (List.replicate w 32).getLast? = some 32 := by
      rw [show w = (w - 1) + 1 by omega, List.replicate_succ']
      rw [List.getLast?_concat]
    rw [hpads, hlast2] at hlast1
    injection hlast1 with hl
    omega

theorem parseUDiff_hdr_skipped (hdr rest : List (List Nat)) (ol nl : Nat)
    (hno : ∀ l ∈ hdr, l.take 2 ≠ [64, 64]) :
    parseUDiff (hdr ++ rest) ol nl false = parseUDiff rest ol nl false := by
  induction hdr with
  | nil => rfl
  | cons raw hdr ih =>
    have hraw : raw.take 2 ≠ [64, 64] := hno raw (List.mem_cons_self raw hdr)
    have hmem : ∀ l ∈ hdr, l.take 2 ≠ [64, 64] :=
      fun l hl => hno l (List.mem_cons_of_mem raw hl)
    simp only [List.cons_append, parseUDiff]
    rw [if_neg hraw, if_pos (Or.inr (Or.inr trivial))]
    exact ih hmem

theorem parseUDiff_header (hh : List Nat) (rest : List (List Nat)) (ol nl a b : Nat)
    (hat : hh.take 2 = [64, 64]) (hph : parseHunkHeader hh = some (a, b)) :
    parseUDiff (hh :: rest) ol nl false = parseUDiff rest a b true := by
  simp only [parseUDiff]
  rw [if_pos hat, hph]

theorem parseUDiff_line_ge (rows : List (List Nat)) (ol nl : Nat)
    (hno : ∀ l ∈ rows, l.take 2 ≠ [64, 64]) :
    ∀ e ∈ parseUDiff rows ol nl true, min ol nl ≤ e.line := by
  induction rows generalizing ol nl with
  | nil => simp [parseUDiff]
  | cons raw rest ih =>
    have hraw : raw.take 2 ≠ [64, 64] := hno raw (List.mem_cons_self raw rest)
    have hmem : ∀ l ∈ rest, l.take 2 ≠ [64, 64] :=
      fun l hl => hno l (List.mem_cons_of_mem raw hl)
    intro e he
    simp only [parseUDiff] at he
    rw [if_neg hraw] at he
    by_cases hskip : raw.take 3 = [45, 45, 45] ∨ raw.take 3 = [43, 43, 43] ∨ (true : Bool) = false
    · rw [if_pos hskip] at he
      exact ih ol nl hmem e he
    · rw [if_neg hskip] at he
      split at he
      · rcases List.mem_cons.mp he with rfl | he'
        · exact min_le_left ol nl
        · have := ih (ol + 1) nl hmem e he'
          calc min ol nl ≤ min (ol + 1) nl := min_le_min (by omega) (le_refl nl)
            _ ≤ e.line := this
      · rcases List.mem_cons.mp he with rfl | he'
        · exact min_le_right ol nl
        · have := ih ol (nl + 1) hmem e he'
          calc min ol nl ≤ min ol (nl + 1) := min_le_min (le_refl ol) (by omega)
            _ ≤ e.line := this
      · rcases List.mem_cons.mp he with rfl | he'
        · exact min_le_left ol nl
        · have := ih (ol + 1) (nl + 1) hmem e he'
          calc min ol nl ≤ min (ol + 1) (nl + 1) := min_le_min (by omega) (by omega)
            _ ≤ e.line := this

theorem parseUDiff_cons_cases (raw : List Nat) (rest : List (List Nat)) (ol nl : Nat)
    (hraw : raw.take 2 ≠ [64, 64])
    (hskip : ¬ (raw.take 3 = [45, 45, 45] ∨ raw.take 3 = [43, 43, 43] ∨ (true : Bool) = false)) :
    (∃ txt, raw = 45 :: txt ∧
      parseUDiff (raw :: rest) ol nl true =
        ⟨EType.r, ol, txt⟩ :: parseUDiff rest (ol + 1) nl true) ∨
    (∃ txt, raw = 43 :: txt ∧
      parseUDiff (raw :: rest) ol nl true =
        ⟨EType.a, nl, txt⟩ :: parseUDiff rest ol (nl + 1) true) ∨
    ((∀ txt, raw ≠ 45 :: txt) ∧ (∀ txt, raw ≠ 43 :: txt) ∧
      parseUDiff (raw :: rest) ol nl true =
        ⟨EType.c, ol, raw.drop 1⟩ :: parseUDiff rest (ol + 1) (nl + 1) true) := by
  simp only [parseUDiff]
  rw [if_neg hraw, if_neg hskip]
  split
  · rename_i txt
    exact Or.inl ⟨txt, rfl, rfl⟩
  · rename_i txt
    exact Or.inr (Or.inl ⟨txt, rfl, rfl⟩)
  · rename_i hn45 hn43
    refine Or.inr (Or.inr ⟨?_, ?_, rfl⟩)
    · intro txt heq
      exact hn45 txt heq
    · intro txt heq
      exact hn43 txt heq

theorem parseUDiff_first_min (rows : List (List Nat)) (L : Nat)
    (hno : ∀ l ∈ rows, l.take 2 ≠ [64, 64]) :
    ∀ e, (parseUDiff rows L L true).find? (fun e => decide (e.t ≠ EType.c)) = some e →
      ∀ e' ∈ parseUDiff rows L L true, e'.t ≠ EType.c → e.line ≤ e'.line := by
  induction rows generalizing L with
  | nil => simp [parseUDiff]
  | cons raw rest ih =>
    have hraw : raw.take 2 ≠ [64, 64] := hno raw (List.mem_cons_self raw rest)
    have hmem : ∀ l ∈ rest, l.take 2 ≠ [64, 64] :=
      fun l hl => hno l (List.mem_cons_of_mem raw hl)
    intro e hfind e' he' hc'
    by_cases hskip : raw.take 3 = [45, 45, 45] ∨ raw.take 3 = [43, 43, 43] ∨ (true : Bool) = false
    · have hstep : parseUDiff (raw :: rest) L L true = parseUDiff rest L L true := by
        simp only [parseUDiff]
        rw [if_neg hraw, if_pos hskip]
      rw [hstep] at hfind he'
      exact ih L hmem e hfind e' he' hc'
    · rcases parseUDiff_cons_cases raw rest L L hraw hskip with
        ⟨txt, -, hstep⟩ | ⟨txt, -, hstep⟩ | ⟨-, -, hstep⟩
      · rw [hstep] at hfind he'
        rw [List.find?_cons_of_pos _ (by simp)] at hfind
        injection hfind with hfind
        subst hfind
        rcases List.mem_cons.mp he' with rfl | he''
        · exact le_refl _
        · have hge := parseUDiff_line_ge rest (L + 1) L hmem e' he''
          rw [min_eq_right (by omega : L ≤ L + 1)] at hge
          exact hge
      · rw [hstep] at hfind he'
        rw [List.find?_cons_of_pos _ (by simp)] at hfind
        injection hfind with hfind
        subst hfind
        rcases List.mem_cons.mp he' with rfl | he''
        · exact le_refl _
        · have hge := parseUDiff_line_ge rest L (L + 1) hmem e' he''
          rw [min_eq_left (by omega : L ≤ L + 1)] at hge
          exact hge
      · rw [hstep] at hfind he'
        rw [List.find?_cons_of_neg _ (by simp)] at hfind
        rcases List.mem_cons.mp he' with rfl | he''
        · exact absurd rfl hc'
        · have := ih (L + 1) hmem e hfind e' he'' hc'
          exact this

theorem formatUnifiedDiffLines_eq (lines : List (List Nat)) :
    formatUnifiedDiffLines lines =
      ⟨(emitLoop (widthOf (parseUDiff lines 0 0 false)) (nearB (parseUDiff lines 0 0 false))
          (parseUDiff lines 0 0 false) 0 none none).1,
        (emitLoop (widthOf (parseUDiff lines 0 0 false)) (nearB (parseUDiff lines 0 0 false))
          (parseUDiff lines 0 0 false) 0 none none).2⟩ := by
  by_cases h : parseUDiff lines 0 0 false = []
  · simp [formatUnifiedDiffLines, h, emitLoop]
  · simp only [formatUnifiedDiffLines]
    rw [if_neg h]

/-- C6 (amended): for a raw unified diff made of header lines followed by a
single hunk whose old-start and new-start coincide — the shape `diff -U99999`
produces — `firstChangedLine` is exactly the lowest line number carried by
any removed or added row of the parsed diff.  (Without the equal-starts
hypothesis the code returns the line of the FIRST removed/added row in parse
order, which can exceed the minimum; see the counterexample.) -/
theorem formatUnifiedDiff_firstChanged (hdr : List (List Nat)) (hh : List Nat)
    (body : List (List Nat)) (s : Nat)
    (hhdr : ∀ l ∈ hdr, l.take 2 ≠ [64, 64])
    (hat : hh.take 2 = [64, 64]) (hph : parseHunkHeader hh = some (s, s))
    (hbody : ∀ l ∈ body, l.take 2 ≠ [64, 64])
    (hch : ∃ e ∈ parseUDiff (hdr ++ hh :: body) 0 0 false, e.t ≠ EType.c) :
    ∃ m, (formatUnifiedDiffLines (hdr ++ hh :: body)).firstChangedLine = some m ∧
      (∃ e ∈ parseUDiff (hdr ++ hh :: body) 0 0 false, e.t ≠ EType.c ∧ e.line = m) ∧
      ∀ e ∈ parseUDiff (hdr ++ hh :: body) 0 0 false, e.t ≠ EType.c → m ≤ e.line := by
  have hparse : parseUDiff (hdr ++ hh :: body) 0 0 false = parseUDiff body s s true := by
    rw [parseUDiff_hdr_skipped hdr (hh :: body) 0 0 hhdr,
      parseUDiff_header hh body 0 0 s s hat hph]
  obtain ⟨e0, he0, hc0⟩ := hch
  obtain ⟨ef, hef⟩ : ∃ ef,
      (parseUDiff (hdr ++ hh :: body) 0 0 false).find? (fun e => decide (e.t ≠ EType.c)) =
        some ef := by
    have hs : ((parseUDiff (hdr ++ hh :: body) 0 0 false).find?
        (fun e => decide (e.t ≠ EType.c))).isSome :=
      List.find?_isSome.mpr ⟨e0, he0, by simpa using hc0⟩
    exact Option.isSome_iff_exists.mp hs
  have hfc : (formatUnifiedDiffLines (hdr ++ hh :: body)).firstChangedLine = some ef.line := by
    rw [formatUnifiedDiffLines_eq]
    simp only
    rw [emitLoop_fc_none, hef]
    rfl
  refine ⟨ef.line, hfc, ?_, ?_⟩
  · have hmem := List.mem_of_find?_eq_some hef
    have hp := List.find?_some hef
    exact ⟨ef, hmem, by simpa using hp, rfl⟩
  · intro e' he' hc'
    rw [hparse] at hef he'
    exact parseUDiff_first_min body s hbody ef hef e' he' hc'

/-- Witness for C6 on a well-formed `diff -U99999`-shaped report. -/
theorem formatUnifiedDiff_firstChanged_witness :
    ∃ m, (formatUnifiedDiffLines ([cu "--- a", cu "+++ b"] ++
        cu "@@ -1,2 +1,2 @@" :: [cu " x", cu "-y", cu "+z"])).firstChangedLine = some m ∧
      (∃ e ∈ parseUDiff ([cu "--- a", cu "+++ b"] ++
          cu "@@ -1,2 +1,2 @@" :: [cu " x", cu "-y", cu "+z"]) 0 0 false,
        e.t ≠ EType.c ∧ e.line = m) ∧
      ∀ e ∈ parseUDiff ([cu "--- a", cu "+++ b"] ++
          cu "@@ -1,2 +1,2 @@" :: [cu " x", cu "-y", cu "+z"]) 0 0 false,
        e.t ≠ EType.c → m ≤ e.line := by
  exact formatUnifiedDiff_firstChanged [cu "--- a", cu "+++ b"] (cu "@@ -1,2 +1,2 @@")
    [cu " x", cu "-y", cu "+z"] 1 (by decide) (by decide) (by decide) (by decide)
    ⟨⟨EType.r, 2, cu "y"⟩, by decide, by decide⟩

/-- C6 (counterexample to the claim over arbitrary raw diffs): a hunk header
with different old and new start numbers makes `firstChangedLine` the first
changed row in parse order (line 3), not the lowest line number of any
changed row (line 1). -/
theorem formatUnifiedDiff_firstChanged_counterexample :
    (formatUnifiedDiffLines [cu "@@ -3,1 +1,1 @@", cu "-x", cu "+y"]).firstChangedLine =
      some 3 ∧
    (parseUDiff [cu "@@ -3,1 +1,1 @@", cu "-x", cu "+y"] 0 0 false).map
      (fun e => (e.t, e.line)) = [(EType.r, 3), (EType.a, 1)] := by
  refine ⟨?_, by decide⟩
  decide

theorem renderRow_ne_markerRow_of_mem (entries : List DiffEntry) (e : DiffEntry)
    (he : e ∈ entries) : renderRow (widthOf entries) e ≠ markerRow (widthOf entries) := by
  refine renderRow_ne_markerRow _ _ ?_
  have h1 : e.line ≤ maxLine entries := maxLine_ge entries e he
  have h2 := decDigits_len_mono e.line (maxLine entries) h1
  unfold widthOf
  omega

/-- C7 (amended): the report keeps exactly the removed/added rows and the
context rows within `CONTEXT = 4` entry positions of one (every emitted row
is either such a kept row's rendering or the ellipsis marker, and a kept
context row is always `near` a change); each maximal omitted run lying
BETWEEN two emitted rows is replaced by exactly one ellipsis marker — leading
and trailing omitted runs are dropped without a marker (see the
counterexample); the report length is the kept-row count plus the marker
count, and when all changes sit at one entry index at most `2*4+1 = 9` rows
are kept — a single-line change never reproduces the whole file. -/
theorem formatUnifiedDiff_window (udiffLines : List (List Nat))
    (entries : List DiffEntry) (w : Nat)
    (hent : entries = parseUDiff udiffLines 0 0 false) (hw : w = widthOf entries) :
    (∀ row ∈ (formatUnifiedDiffLines udiffLines).rows,
      row = markerRow w ∨
        ∃ k, ∃ hk : k < entries.length,
          (entries[k].t ≠ EType.c ∨ nearB entries k = true) ∧
          row = renderRow w entries[k]) ∧
    (∀ k ∈ keptIdxList entries,
      (entries.getD k ⟨EType.c, 0, []⟩).t = EType.c → nearB entries k = true) ∧
    ((formatUnifiedDiffLines udiffLines).rows.count (markerRow w) =
      countGaps (keptIdxList entries)) ∧
    ((formatUnifiedDiffLines udiffLines).rows.length =
      (keptIdxList entries).length + countGaps (keptIdxList entries)) ∧
    (∀ i0, (∀ k, (hk : k < entries.length) → entries[k].t ≠ EType.c → k = i0) →
      (keptIdxList entries).length ≤ 9) := by
  subst hent
  subst hw
  have hrows : (formatUnifiedDiffLines udiffLines).rows =
      (emitLoop (widthOf (parseUDiff udiffLines 0 0 false))
        (nearB (parseUDiff udiffLines 0 0 false))
        (parseUDiff udiffLines 0 0 false) 0 none none).1 := by
    rw [formatUnifiedDiffLines_eq]
  refine ⟨?_, ?_, ?_, ?_, ?_⟩
  · intro row hrow
    rw [hrows] at hrow
    have h := emitLoop_rows_mem _ _ _ _ _ _ row hrow
    simpa using h
  · intro k hk hc
    obtain ⟨-, hlt, hcond⟩ :=
      keptFrom_bounds (nearB (parseUDiff udiffLines 0 0 false))
        (parseUDiff udiffLines 0 0 false) 0 k hk
    rw [Nat.sub_zero] at hlt hcond
    rcases hcond with hne | hnear
    · exact absurd hc hne
    · exact hnear
  · rw [hrows]
    exact emitLoop_count _ _ _ _ _ _
      (fun e he => renderRow_ne_markerRow_of_mem _ e he)
  · rw [hrows]
    exact emitLoop_len _ _ _ _ _ _
  · intro i0 hone
    exact keptIdxList_single_bound _ i0 hone

/-- Witness for C7: two changes separated by ten context rows produce exactly
one interior ellipsis marker. -/
theorem formatUnifiedDiff_window_witness :
    ((formatUnifiedDiffLines [cu "@@ -1,12 +1,12 @@", cu "-a", cu "+b", cu " c", cu " d",
        cu " e", cu " f", cu " g", cu " h", cu " i", cu " j", cu " k", cu " l",
        cu "-m", cu "+n"]).rows.count
      (markerRow (widthOf (parseUDiff [cu "@@ -1,12 +1,12 @@", cu "-a", cu "+b", cu " c",
        cu " d", cu " e", cu " f", cu " g", cu " h", cu " i", cu " j", cu " k", cu " l",
        cu "-m", cu "+n"] 0 0 false))) =
      countGaps (keptIdxList (parseUDiff [cu "@@ -1,12 +1,12 @@", cu "-a", cu "+b", cu " c",
        cu " d", cu " e", cu " f", cu " g", cu " h", cu " i", cu " j", cu " k", cu " l",
        cu "-m", cu "+n"] 0 0 false))) ∧
    countGaps (keptIdxList (parseUDiff [cu "@@ -1,12 +1,12 @@", cu "-a", cu "+b", cu " c",
        cu " d", cu " e", cu " f", cu " g", cu " h", cu " i", cu " j", cu " k", cu " l",
        cu "-m", cu "+n"] 0 0 false)) = 1 := by
  refine ⟨(formatUnifiedDiff_window _ _ _ rfl rfl).2.2.1, ?_⟩
  decide

/-- C7 (counterexample to "each maximal run of omitted context rows is
replaced by exactly one ellipsis marker"): with six leading context rows
before the only change, the leading maximal omitted run (entry indices 0 and
1) produces NO marker at all. -/
theorem formatUnifiedDiff_window_counterexample :
    omittedIdxList (parseUDiff [cu "@@ -1,9 +1,9 @@", cu " a", cu " b", cu " c", cu " d",
        cu " e", cu " f", cu "-x", cu "+y"] 0 0 false) = [0, 1] ∧
    countRuns (omittedIdxList (parseUDiff [cu "@@ -1,9 +1,9 @@", cu " a", cu " b", cu " c",
        cu " d", cu " e", cu " f", cu "-x", cu "+y"] 0 0 false)) = 1 ∧
    (formatUnifiedDiffLines [cu "@@ -1,9 +1,9 @@", cu " a", cu " b", cu " c", cu " d",
        cu " e", cu " f", cu "-x", cu "+y"]).rows.count
      (markerRow (widthOf (parseUDiff [cu "@@ -1,9 +1,9 @@", cu " a", cu " b", cu " c",
        cu " d", cu " e", cu " f", cu "-x", cu "+y"] 0 0 false))) = 0 := by
  refine ⟨by decide, by decide, ?_⟩
  decide

/-- C8 (amended): every row of the report renders its line number right-aligned
(leading spaces, then the decimal digits) in a column of width
`max(3, digits(mx))` where `mx` is the largest line number among ALL parsed
rows — including context rows that the windowing later omits from the report,
not only the rows actually emitted (see the counterexample). -/
theorem formatUnifiedDiff_width (udiffLines : List (List Nat))
    (entries : List DiffEntry) (w : Nat)
    (hent : entries = parseUDiff udiffLines 0 0 false) (hw : w = widthOf entries) :
    w = max 3 (decDigits (maxLine entries)).length ∧
    (∀ row ∈ (formatUnifiedDiffLines udiffLines).rows,
      row = markerRow w ∨
        ∃ k, ∃ hk : k < entries.length,
          row = renderRow w entries[k] ∧
          (padLeft w (decDigits entries[k].line)).length = w ∧
          renderRow w entries[k] =
            typeChar entries[k].t ::
              (List.replicate (w - (decDigits entries[k].line).length) 32 ++
                decDigits entries[k].line) ++ 32 :: entries[k].text) := by
  subst hent
  subst hw
  refine ⟨rfl, ?_⟩
  intro row hrow
  rw [formatUnifiedDiffLines_eq] at hrow
  have h := emitLoop_rows_mem _ _ _ _ _ _ row hrow
  rcases h with h | ⟨k, hk, -, hr⟩
  · exact Or.inl h
  · refine Or.inr ⟨k, hk, hr, ?_, rfl⟩
    have h1 : (parseUDiff udiffLines 0 0 false)[k].line ≤
        maxLine (parseUDiff udiffLines 0 0 false) :=
      maxLine_ge _ _ (List.getElem_mem hk)
    have h2 := decDigits_len_mono _ _ h1
    unfold padLeft
    simp only [List.length_append, List.length_replicate]
    unfold widthOf
    omega

/-- Witness for C8: in a two-digit-line report the column width is 3 and a
removed row renders as `-` + right-aligned number + space + text. -/
theorem formatUnifiedDiff_width_witness :
    widthOf (parseUDiff [cu "@@ -1,2 +1,2 @@", cu " x", cu "-y", cu "+z"] 0 0 false) =
      max 3 (decDigits (maxLine
        (parseUDiff [cu "@@ -1,2 +1,2 @@", cu " x", cu "-y", cu "+z"] 0 0 false))).length ∧
    ((cu "-  2 y" : List Nat) = markerRow (widthOf (parseUDiff [cu "@@ -1,2 +1,2 @@",
        cu " x", cu "-y", cu "+z"] 0 0 false)) ∨
      ∃ k, ∃ hk : k < (parseUDiff [cu "@@ -1,2 +1,2 @@", cu " x", cu "-y", cu "+z"]
          0 0 false).length,
        (cu "-  2 y" : List Nat) =
          renderRow (widthOf (parseUDiff [cu "@@ -1,2 +1,2 @@", cu " x", cu "-y", cu "+z"]
            0 0 false))
            (parseUDiff [cu "@@ -1,2 +1,2 @@", cu " x", cu "-y", cu "+z"] 0 0 false)[k] ∧
        (padLeft (widthOf (parseUDiff [cu "@@ -1,2 +1,2 @@", cu " x", cu "-y", cu "+z"]
            0 0 false))
          (decDigits (parseUDiff [cu "@@ -1,2 +1,2 @@", cu " x", cu "-y", cu "+z"]
            0 0 false)[k].line)).length =
          widthOf (parseUDiff [cu "@@ -1,2 +1,2 @@", cu " x", cu "-y", cu "+z"] 0 0 false) ∧
        renderRow (widthOf (parseUDiff [cu "@@ -1,2 +1,2 @@", cu " x", cu "-y", cu "+z"]
            0 0 false))
            (parseUDiff [cu "@@ -1,2 +1,2 @@", cu " x", cu "-y", cu "+z"] 0 0 false)[k] =
          typeChar (parseUDiff [cu "@@ -1,2 +1,2 @@", cu " x", cu "-y", cu "+z"]
            0 0 false)[k].t ::
            (List.replicate ((widthOf (parseUDiff [cu "@@ -1,2 +1,2 @@", cu " x", cu "-y",
                cu "+z"] 0 0 false)) -
                (decDigits (parseUDiff [cu "@@ -1,2 +1,2 @@", cu " x", cu "-y", cu "+z"]
                  0 0 false)[k].line).length) 32 ++
              decDigits (parseUDiff [cu "@@ -1,2 +1,2 @@", cu " x", cu "-y", cu "+z"]
                0 0 false)[k].line) ++
            32 :: (parseUDiff [cu "@@ -1,2 +1,2 @@", cu " x", cu "-y", cu "+z"]
              0 0 false)[k].text) := by
  have h := formatUnifiedDiff_width [cu "@@ -1,2 +1,2 @@", cu " x", cu "-y", cu "+z"]
    _ _ rfl rfl
  exact ⟨h.1, h.2 (cu "-  2 y") (by decide)⟩

/-- C8 (counterexample to "width sized to the largest number among the rows
actually emitted"): trailing omitted context reaches line 1004 (4 digits), so
the code pads to width 4 — `"- 995 x"` — although the largest line number in
the emitted report is 999, whose claimed width would be 3. -/
theorem formatUnifiedDiff_width_counterexample :
    widthOf (parseUDiff [cu "@@ -995,10 +995,10 @@", cu "-x", cu "+y", cu " a", cu " b",
      cu " c", cu " d", cu " e", cu " f", cu " g", cu " h", cu " i"] 0 0 false) = 4 ∧
    maxEmittedLine (parseUDiff [cu "@@ -995,10 +995,10 @@", cu "-x", cu "+y", cu " a",
      cu " b", cu " c", cu " d", cu " e", cu " f", cu " g", cu " h", cu " i"]
      0 0 false) = 999 ∧
    max 3 (decDigits 999).length = 3 ∧
    (formatUnifiedDiffLines [cu "@@ -995,10 +995,10 @@", cu "-x", cu "+y", cu " a", cu " b",
      cu " c", cu " d", cu " e", cu " f", cu " g", cu " h", cu " i"]).rows.head? =
      some (cu "- 995 x") := by
  refine ⟨by decide, by decide, by decide, ?_⟩
  decide
